import Mathlib

/-
  Verification model of the `lru` crate (src/src/lib.rs): an LRU cache whose
  recency list is a circular intrusive doubly linked list anchored by a sigil,
  combined with a hash index and a pluggable `Limiter` policy.

  Shallow embedding conventions:
  * The recency list is modelled as a `List (K × V)` in MRU-to-LRU order
    (`sigil.next`, the MRU, is the head; `sigil.prev`, the LRU, is the last
    element).  The hash index is implicit: a key is indexed iff it occurs in
    the list.  The sigil itself carries no data and is not represented; the
    "next of the LRU node" is the sigil, which the model renders as the
    absence of a further element.
  * `usize` is modelled as `Nat` with the 64-bit bound made explicit exactly
    where the source performs checked arithmetic (`checked_add`/`checked_sub`).
  * Functions that can panic return `Option`; `none` is the panic.
  * The `Limiter` trait object receives the whole cache in Rust.  `SizeLimited`
    only ever reads `cache.len()` and `CostLimited` ignores the cache argument
    entirely, so the model narrows the cache view to the length.
  * The atomic compare-and-swap retry loop of `CostLimited::update_cost` is
    rendered single-writer: the loop body runs once against the current value,
    which is exact because mutation requires exclusive access to the cache.
-/

namespace Lru

/-- Mirrors `AddBehavior` (lib.rs lines 186-200). -/
inductive AddBehavior : Type
  | Accept
  | Evict
  | Reject
deriving DecidableEq, Repr

/-- Mirrors the `Limiter` trait (lib.rs lines 259-294): policy state of type
`σ`, consulted on every add/update/remove.  Methods that may panic return
`Option`.  The second argument of `is_oversized` and `on_add` is the cache
length (the only part of the cache the built-in limiters read). -/
structure Limiter (K V σ : Type) where
  is_oversized : σ → Nat → Bool
  on_add : σ → Nat → K → V → Option (AddBehavior × σ)
  on_update : σ → K → V → Option K → Option V → Option (AddBehavior × σ)
  on_remove : σ → K → V → Option σ

/-- Mirrors `LruCache` (lib.rs lines 1617-1624): the recency list (MRU first)
together with the limiter state.  The hash index is the set of keys of
`list`; the lazily allocated sigil is not data and is left implicit. -/
structure LruCache (K V σ : Type) where
  list : List (K × V)
  limiter : σ
deriving DecidableEq, Repr

/-- `SizeLimited::is_oversized` (lib.rs line 348): `cache.len() > self.0`. -/
def SizeLimited.is_oversized (limit len : Nat) : Bool :=
  limit < len

/-- `SizeLimited::on_add` (lib.rs lines 352-365): reject at capacity 0, evict
when `cache.len() >= self.0`, accept otherwise. -/
def SizeLimited.on_add (limit len : Nat) : AddBehavior :=
  if limit == 0 then AddBehavior.Reject
  else if limit ≤ len then AddBehavior.Evict
  else AddBehavior.Accept

/-- The `Limiter` impl for `SizeLimited` (lib.rs lines 347-378); the state is
the `usize` limit.  `on_update` accepts unconditionally (updates do not change
the length); `on_remove` is the trait default, doing nothing. -/
def SizeLimited.limiter (K V : Type) : Limiter K V Nat where
  is_oversized := fun limit len => SizeLimited.is_oversized limit len
  on_add := fun limit len _ _ => some (SizeLimited.on_add limit len, limit)
  on_update := fun limit _ _ _ _ => some (AddBehavior.Accept, limit)
  on_remove := fun limit _ _ => some limit

/-- `usize::MAX` on the 64-bit targets the crate is built for. -/
def USIZE_MAX : Nat := 2 ^ 64 - 1

/-- `CostLimited::MAX_LIMIT = usize::MAX / 2` (lib.rs line 436). -/
def CostLimited.MAX_LIMIT : Nat := USIZE_MAX / 2

/-- The numeric state of `CostLimited` (lib.rs lines 421-425): the limit and
the running total `current`.  The cost function is passed separately. -/
structure CostState where
  limit : Nat
  current : Nat
deriving DecidableEq, Repr

/-- `CostLimited::set_limit` (lib.rs lines 455-460): panics (`none`) when the
limit exceeds `MAX_LIMIT`. -/
def CostLimited.set_limit (c : CostState) (limit : Nat) : Option CostState :=
  if CostLimited.MAX_LIMIT < limit then none else some { c with limit := limit }

/-- `CostLimited::add_cost` (lib.rs lines 482-486): `checked_add` plus
`expect`; `none` is the "Cost overflowed" panic. -/
def CostLimited.add_cost (current cost : Nat) : Option Nat :=
  if current + cost ≤ USIZE_MAX then some (current + cost) else none

/-- `CostLimited::sub_cost` (lib.rs lines 488-492): `checked_sub` plus
`expect`; `none` is the "cost changed between insertion and removal" panic. -/
def CostLimited.sub_cost (current cost : Nat) : Option Nat :=
  if cost ≤ current then some (current - cost) else none

/-- `CostLimited::update_cost` (lib.rs lines 494-511): run `func` against the
current total, store the result, and report `Evict` when the new total
exceeds the limit, `Accept` otherwise.  The CAS retry loop is single-writer
here, so the body runs exactly once. -/
def CostLimited.update_cost (c : CostState) (func : Nat → Option Nat) :
    Option (AddBehavior × CostState) :=
  (func c.current).map fun next =>
    (if c.limit < next then AddBehavior.Evict else AddBehavior.Accept,
     { c with current := next })

/-- `CostLimited::on_add` (lib.rs lines 519-530). -/
def CostLimited.on_add {K V : Type} (kc : K → Nat) (vc : V → Nat)
    (c : CostState) (key : K) (value : V) : Option (AddBehavior × CostState) :=
  let cost := kc key + vc value
  if c.limit < cost then some (AddBehavior.Reject, c)
  else CostLimited.update_cost c fun current => CostLimited.add_cost current cost

/-- `CostLimited::on_update` (lib.rs lines 532-551): accumulate the old and new
costs of whichever dimensions changed, then subtract the old and add the new. -/
def CostLimited.on_update {K V : Type} (kc : K → Nat) (vc : V → Nat)
    (c : CostState) (old_key : K) (old_value : V)
    (new_key : Option K) (new_value : Option V) : Option (AddBehavior × CostState) :=
  let prev_cost := (match new_key with | some _ => kc old_key | none => 0)
      + (match new_value with | some _ => vc old_value | none => 0)
  let next_cost := (match new_key with | some nk => kc nk | none => 0)
      + (match new_value with | some nv => vc nv | none => 0)
  CostLimited.update_cost c fun current =>
    (CostLimited.sub_cost current prev_cost).bind fun x =>
      CostLimited.add_cost x next_cost

/-- `CostLimited::on_remove` (lib.rs lines 553-556). -/
def CostLimited.on_remove {K V : Type} (kc : K → Nat) (vc : V → Nat)
    (c : CostState) (key : K) (value : V) : Option CostState :=
  (CostLimited.update_cost c fun current =>
    CostLimited.sub_cost current (kc key + vc value)).map Prod.snd

/-- `CostLimited::current` (lib.rs lines 462-465). -/
def CostLimited.current (c : CostState) : Nat := c.current

/-- `CostLimited::is_oversized` (lib.rs lines 515-517): `current > limit`. -/
def CostLimited.is_oversized (c : CostState) : Bool := c.limit < c.current

/-- The `Limiter` impl for `CostLimited` (lib.rs lines 514-557), given the two
cost projections of its `CostFn`. -/
def CostLimited.limiter {K V : Type} (kc : K → Nat) (vc : V → Nat) :
    Limiter K V CostState where
  is_oversized := fun c _ => CostLimited.is_oversized c
  on_add := fun c _ k v => CostLimited.on_add kc vc c k v
  on_update := fun c ok ov nk nv => CostLimited.on_update kc vc c ok ov nk nv
  on_remove := fun c k v => CostLimited.on_remove kc vc c k v

variable {K V σ : Type} [DecidableEq K]

/-- `LruCache::len` (lib.rs lines 2362-2364). -/
def LruCache.len (c : LruCache K V σ) : Nat := c.list.length

/-- `LruCache::is_empty` (lib.rs lines 2378-2380). -/
def LruCache.is_empty (c : LruCache K V σ) : Bool := c.len == 0

/-- The index lookup performed by `LruCache::entry_for` (lib.rs lines
1843-1863): the resident node (key-value pair) for `k`, if any. -/
def LruCache.find_node (c : LruCache K V σ) (k : K) : Option (K × V) :=
  c.list.find? fun p => p.1 == k

/-- `LruCache::contains` (lib.rs lines 2196-2202). -/
def LruCache.contains (c : LruCache K V σ) (k : K) : Bool :=
  (c.find_node k).isSome

/-- `LruCache::detach` of the node holding `k` (lib.rs lines 2537-2542):
splice the node out of the recency list. -/
def LruCache.detach_key (c : LruCache K V σ) (k : K) : List (K × V) :=
  c.list.eraseP fun p => p.1 == k

/-- `OccupiedEntry::promote` (lib.rs lines 813-816): detach then attach at the
MRU position.  Identity when `k` is not resident (the entry API only calls it
on resident nodes). -/
def LruCache.promote (c : LruCache K V σ) (k : K) : LruCache K V σ :=
  match c.find_node k with
  | none => c
  | some p => { c with list := p :: c.detach_key k }

/-- `OccupiedEntry::demote` (lib.rs lines 845-848): detach then attach at the
LRU position. -/
def LruCache.demote_key (c : LruCache K V σ) (k : K) : LruCache K V σ :=
  match c.find_node k with
  | none => c
  | some p => { c with list := c.detach_key k ++ [p] }

/-- Mirrors `OccupiedExtra` (lib.rs lines 629-634): an occupied view holds
either its (possibly consumed) creation key or the pending evicted pair. -/
inductive OccupiedExtra (K V : Type) : Type
  | key
  | evicted (pending : Option (K × V))
deriving DecidableEq, Repr

/-- Mirrors `OccupiedEntry` (lib.rs lines 636-648): the borrowed cache, the
node (identified by its key, which is unique across live nodes), and the
extra. -/
structure OccupiedEntry (K V σ : Type) where
  cache : LruCache K V σ
  node_key : K
  extra : OccupiedExtra K V
deriving DecidableEq, Repr

/-- `OccupiedEntry::take_evicted` (lib.rs lines 1029-1061).  A lookup view
(`extra = key`) yields nothing.  An insertion view first yields its pending
pair; afterwards, while the limiter reports the cache oversized, the LRU node
is removed and returned — unless the LRU node is the view's own node, in which
case the source calls `other.next()`, which is the sigil (the LRU node's list
successor is always the sigil), so the `Err` branch is taken and the call
bails out, fusing the view. -/
def OccupiedEntry.take_evicted (L : Limiter K V σ) (e : OccupiedEntry K V σ) :
    Option (Option (K × V) × OccupiedEntry K V σ) :=
  match e.extra with
  | OccupiedExtra.key => some (none, e)
  | OccupiedExtra.evicted (some pair) =>
    some (some pair, { e with extra := OccupiedExtra.evicted none })
  | OccupiedExtra.evicted none =>
    if L.is_oversized e.cache.limiter e.cache.len then
      match e.cache.list.getLast? with
      | none => some (none, { e with extra := OccupiedExtra.key })
      | some other =>
        if other.1 == e.node_key then
          some (none, { e with extra := OccupiedExtra.key })
        else
          (L.on_remove e.cache.limiter other.1 other.2).map fun s =>
            (some other, { e with cache := ⟨e.cache.list.dropLast, s⟩ })
    else some (none, { e with extra := OccupiedExtra.key })

/-- The loop in `OccupiedEntry`'s `Drop` impl (lib.rs lines 1212-1218):
repeatedly `take_evicted` until it yields nothing.  `fuel` bounds the
iteration; `e.cache.len + 2` steps always suffice because each yielding step
after the pending pair removes one resident node. -/
def drainLoop (L : Limiter K V σ) : Nat → OccupiedEntry K V σ → Option (LruCache K V σ)
  | 0, _ => none
  | fuel + 1, e =>
    match e.take_evicted L with
    | none => none
    | some (none, e2) => some e2.cache
    | some (some _, e2) => drainLoop L fuel e2

/-- Dropping an `OccupiedEntry`: drain every pending eviction. -/
def OccupiedEntry.drop_drain (L : Limiter K V σ) (e : OccupiedEntry K V σ) :
    Option (LruCache K V σ) :=
  drainLoop L (e.cache.len + 2) e

/-- `VacantEntry::try_insert_entry` (lib.rs lines 1360-1393).  Reject fails
with the offered pair; Evict on a non-empty cache reuses the LRU node: remove
it (index and list), capture its pair as evicted, store the new pair in the
node and attach it at MRU; Accept — and Evict on an empty cache — allocate a
fresh node at MRU (allocating the sigil first when empty).  The new node is
indexed last. -/
def VacantEntry.try_insert_entry (L : Limiter K V σ) (c : LruCache K V σ)
    (key : K) (value : V) :
    Option (Sum (OccupiedEntry K V σ) ((K × V) × LruCache K V σ)) :=
  (L.on_add c.limiter c.len key value).bind fun bs =>
    match bs.1 with
    | AddBehavior.Reject => some (Sum.inr ((key, value), { c with limiter := bs.2 }))
    | AddBehavior.Evict =>
      if c.is_empty then
        some (Sum.inl ⟨⟨(key, value) :: c.list, bs.2⟩, key, OccupiedExtra.evicted none⟩)
      else
        match c.list.getLast? with
        | none => none
        | some lru =>
          (L.on_remove bs.2 lru.1 lru.2).map fun s2 =>
            Sum.inl ⟨⟨(key, value) :: c.list.dropLast, s2⟩, key,
              OccupiedExtra.evicted (some lru)⟩
    | AddBehavior.Accept =>
      some (Sum.inl ⟨⟨(key, value) :: c.list, bs.2⟩, key, OccupiedExtra.evicted none⟩)

/-- `OccupiedEntry::try_insert` (lib.rs lines 942-951): consult
`on_update(old_key, old_value, None, Some(new_value))`; on Reject return the
rejected value with node untouched; otherwise promote the node (`get_mut`)
and replace its value, returning the old value. -/
def OccupiedEntry.try_insert (L : Limiter K V σ) (e : OccupiedEntry K V σ)
    (value : V) : Option (Sum V V × OccupiedEntry K V σ) :=
  match e.cache.find_node e.node_key with
  | none => none
  | some p =>
    (L.on_update e.cache.limiter p.1 p.2 none (some value)).map fun bs =>
      if bs.1 = AddBehavior.Reject then
        (Sum.inr value, { e with cache := { e.cache with limiter := bs.2 } })
      else
        (Sum.inl p.2,
         { e with cache := ⟨(p.1, value) :: e.cache.detach_key e.node_key, bs.2⟩ })

/-- `OccupiedEntry::demote` applied to a view (lib.rs lines 845-848). -/
def OccupiedEntry.demote (e : OccupiedEntry K V σ) : OccupiedEntry K V σ :=
  { e with cache := e.cache.demote_key e.node_key }

/-- `LruCache::put` (lib.rs lines 1881-1886).  Occupied: `entry.insert(v)` —
panic on Reject, otherwise promote and replace the value, returning the old
one (the view's extra is its lookup key, so its drop drains nothing).
Vacant: `try_insert`, whose `Ok` path promotes the fresh MRU node (`into_mut`)
and then drops the view, draining pending evictions; on Reject the offered
value comes back in place of the old one. -/
def LruCache.put (L : Limiter K V σ) (c : LruCache K V σ) (k : K) (v : V) :
    Option (Option V × LruCache K V σ) :=
  match c.find_node k with
  | some p =>
    (L.on_update c.limiter p.1 p.2 none (some v)).bind fun bs =>
      match bs.1 with
      | AddBehavior.Reject => none
      | _ => some (some p.2, ⟨(p.1, v) :: c.detach_key k, bs.2⟩)
  | none =>
    (VacantEntry.try_insert_entry L c k v).bind fun r =>
      match r with
      | Sum.inr (pair, c2) => some (some pair.2, c2)
      | Sum.inl e =>
        (OccupiedEntry.drop_drain L { e with cache := e.cache.promote e.node_key }).map
          fun c2 => (none, c2)

/-- `LruCache::push` (lib.rs lines 1911-1919).  Occupied: `replace_entry(v)` —
`on_update` with both dimensions, panic on Reject, otherwise the stored key
becomes the offered key, the value is replaced, the node promoted, and the old
pair returned.  Vacant: `try_insert_entry`, surface the first `take_evicted`
result, then drop the view (draining any further evictions). -/
def LruCache.push (L : Limiter K V σ) (c : LruCache K V σ) (k : K) (v : V) :
    Option (Option (K × V) × LruCache K V σ) :=
  match c.find_node k with
  | some p =>
    (L.on_update c.limiter p.1 p.2 (some k) (some v)).bind fun bs =>
      match bs.1 with
      | AddBehavior.Reject => none
      | _ => some (some p, ⟨(k, v) :: c.detach_key k, bs.2⟩)
  | none =>
    (VacantEntry.try_insert_entry L c k v).bind fun r =>
      match r with
      | Sum.inr (pair, c2) => some (some pair, c2)
      | Sum.inl e =>
        (e.take_evicted L).bind fun te =>
          (te.2.drop_drain L).map fun c2 => (te.1, c2)

/-- `LruCache::get` (lib.rs lines 1939-1945, via `get_mut` and `into_mut`):
lookup plus promote; no limiter involvement. -/
def LruCache.get (c : LruCache K V σ) (k : K) : Option V × LruCache K V σ :=
  match c.find_node k with
  | none => (none, c)
  | some p => (some p.2, c.promote k)

/-- `LruCache::pop_entry` (lib.rs lines 2246-2255, via
`OccupiedEntry::remove_entry`): unindex, detach, `on_remove`, return the
pair. -/
def LruCache.pop_entry (L : Limiter K V σ) (c : LruCache K V σ) (k : K) :
    Option (Option (K × V) × LruCache K V σ) :=
  match c.find_node k with
  | none => some (none, c)
  | some p =>
    (L.on_remove c.limiter p.1 p.2).map fun s => (some p, ⟨c.detach_key k, s⟩)

/-- `LruCache::pop_lru` (lib.rs lines 2276-2278): remove the LRU node. -/
def LruCache.pop_lru (L : Limiter K V σ) (c : LruCache K V σ) :
    Option (Option (K × V) × LruCache K V σ) :=
  match c.list.getLast? with
  | none => some (none, c)
  | some p =>
    (L.on_remove c.limiter p.1 p.2).map fun s => (some p, ⟨c.list.dropLast, s⟩)

/-- A top-level cache operation, for stating invariants over operation
sequences. -/
inductive CacheOp (K V : Type) : Type
  | put (k : K) (v : V)
  | push (k : K) (v : V)
  | get (k : K)
  | pop (k : K)
  | popLru
  | promote (k : K)
  | demote (k : K)

/-- Run one top-level operation, keeping the resulting cache. -/
def runOp (L : Limiter K V σ) (c : LruCache K V σ) :
    CacheOp K V → Option (LruCache K V σ)
  | CacheOp.put k v => (c.put L k v).map Prod.snd
  | CacheOp.push k v => (c.push L k v).map Prod.snd
  | CacheOp.get k => some (c.get k).2
  | CacheOp.pop k => (c.pop_entry L k).map Prod.snd
  | CacheOp.popLru => (c.pop_lru L).map Prod.snd
  | CacheOp.promote k => some (c.promote k)
  | CacheOp.demote k => some (c.demote_key k)

/-- Run a sequence of top-level operations. -/
def runOps (L : Limiter K V σ) (c : LruCache K V σ) :
    List (CacheOp K V) → Option (LruCache K V σ)
  | [] => some c
  | op :: ops => (runOp L c op).bind fun c2 => runOps L c2 ops

/-- A sequence of `put` calls (for the zero-capacity scenario). -/
def putList (L : Limiter K V σ) (c : LruCache K V σ) :
    List (K × V) → Option (LruCache K V σ)
  | [] => some c
  | p :: ps => (c.put L p.1 p.2).bind fun r => putList L r.2 ps

/-- The pure cost of a list of entries: the sum of `key_cost + value_cost`
over its pairs. -/
def costSum (kc : K → Nat) (vc : V → Nat) : List (K × V) → Nat
  | [] => 0
  | p :: l => kc p.1 + vc p.2 + costSum kc vc l

/-- The cost-limited bookkeeping invariant: the running total reported by
`current()` equals the pure cost sum over the resident entries. -/
def CostInvariant (kc : K → Nat) (vc : V → Nat) (c : LruCache K V CostState) : Prop :=
  CostLimited.current c.limiter = costSum kc vc c.list

/-- The old cost accumulated by `CostLimited::on_update` over the dimensions
being changed. -/
def prevCost (kc : K → Nat) (vc : V → Nat) (old_key : K) (old_value : V)
    (new_key : Option K) (new_value : Option V) : Nat :=
  (match new_key with | some _ => kc old_key | none => 0)
    + (match new_value with | some _ => vc old_value | none => 0)

/-- The new cost accumulated by `CostLimited::on_update` over the dimensions
being changed. -/
def nextCost (kc : K → Nat) (vc : V → Nat)
    (new_key : Option K) (new_value : Option V) : Nat :=
  (match new_key with | some nk => kc nk | none => 0)
    + (match new_value with | some nv => vc nv | none => 0)

/-- A custom limiter that accepts every addition but rejects every update;
used to exercise the update-Reject path of the entry API on concrete
inputs. -/
def rejectUpdates (K V : Type) : Limiter K V Unit where
  is_oversized := fun _ _ => false
  on_add := fun s _ _ _ => some (AddBehavior.Accept, s)
  on_update := fun s _ _ _ _ => some (AddBehavior.Reject, s)
  on_remove := fun s _ _ => some s

/-- Closed form of `CostLimited::on_add`: reject outright — with the state
untouched — iff the entry's own cost exceeds the limit; otherwise add the
cost to the total (panicking on `usize` overflow) and report Evict iff the
new total exceeds the limit. -/
theorem CostLimited.on_add_spec {K V : Type} (kc : K → Nat) (vc : V → Nat)
    (c : CostState) (k : K) (v : V) :
    CostLimited.on_add kc vc c k v =
      if c.limit < kc k + vc v then some (AddBehavior.Reject, c)
      else if c.current + (kc k + vc v) ≤ USIZE_MAX then
        some (if c.limit < c.current + (kc k + vc v) then AddBehavior.Evict
              else AddBehavior.Accept,
          ⟨c.limit, c.current + (kc k + vc v)⟩)
      else none := by
  simp only [CostLimited.on_add, CostLimited.update_cost, CostLimited.add_cost]
  split
  · rfl
  · split <;> simp

/-- Closed form of `CostLimited::on_update`: subtract the old cost of the
changed dimensions (panicking on underflow), add their new cost (panicking on
overflow), and report Evict iff the new total exceeds the limit — it never
returns Reject, and when it panics nothing is committed. -/
theorem CostLimited.on_update_spec {K V : Type} (kc : K → Nat) (vc : V → Nat)
    (c : CostState) (ok : K) (ov : V) (nk : Option K) (nv : Option V) :
    CostLimited.on_update kc vc c ok ov nk nv =
      if prevCost kc vc ok ov nk nv ≤ c.current then
        if c.current - prevCost kc vc ok ov nk nv + nextCost kc vc nk nv
            ≤ USIZE_MAX then
          some (if c.limit < c.current - prevCost kc vc ok ov nk nv
                    + nextCost kc vc nk nv
                then AddBehavior.Evict else AddBehavior.Accept,
            ⟨c.limit,
             c.current - prevCost kc vc ok ov nk nv + nextCost kc vc nk nv⟩)
        else none
      else none := by
  simp only [CostLimited.on_update, CostLimited.update_cost, CostLimited.sub_cost,
    CostLimited.add_cost, prevCost, nextCost]
  split
  · split <;> simp
  · simp_all

/-- Closed form of `CostLimited::on_remove`: subtract the node's cost from
the total (panicking on underflow). -/
theorem CostLimited.on_remove_spec {K V : Type} (kc : K → Nat) (vc : V → Nat)
    (c : CostState) (k : K) (v : V) :
    CostLimited.on_remove kc vc c k v =
      if kc k + vc v ≤ c.current then some ⟨c.limit, c.current - (kc k + vc v)⟩
      else none := by
  simp only [CostLimited.on_remove, CostLimited.update_cost, CostLimited.sub_cost]
  split <;> simp

theorem costSum_append (kc : K → Nat) (vc : V → Nat) (l1 l2 : List (K × V)) :
    costSum kc vc (l1 ++ l2) = costSum kc vc l1 + costSum kc vc l2 := by
  induction l1 with
  | nil => simp [costSum]
  | cons a t ih =>
    simp only [List.cons_append, costSum, List.append_eq]
    rw [ih]
    omega

theorem costSum_find? (kc : K → Nat) (vc : V → Nat) (q : K × V → Bool)
    (l : List (K × V)) (p : K × V) (h : l.find? q = some p) :
    costSum kc vc l = kc p.1 + vc p.2 + costSum kc vc (l.eraseP q) := by
  induction l with
  | nil => simp at h
  | cons a t ih =>
    by_cases hq : q a
    · rw [List.find?_cons_of_pos _ hq] at h
      injection h with h
      subst h
      rw [List.eraseP_cons_of_pos hq]
      rfl
    · rw [List.find?_cons_of_neg _ hq] at h
      rw [List.eraseP_cons_of_neg (by simpa using hq)]
      simp only [costSum, ih h]
      omega

theorem costSum_getLast? (kc : K → Nat) (vc : V → Nat) (l : List (K × V))
    (p : K × V) (h : l.getLast? = some p) :
    costSum kc vc l = costSum kc vc l.dropLast + (kc p.1 + vc p.2) := by
  induction l with
  | nil => simp at h
  | cons a t ih =>
    cases t with
    | nil =>
      simp only [List.getLast?_singleton, Option.some.injEq] at h
      subst h
      simp [costSum]
    | cons b t2 =>
      rw [List.getLast?_cons_cons] at h
      have hih := ih h
      have hd : (a :: b :: t2).dropLast = a :: (b :: t2).dropLast := rfl
      rw [hd]
      simp only [costSum] at hih ⊢
      omega

/-- C6: for a `CostLimited` limiter, `on_add` computes
`cost = key_cost(key) + value_cost(value)` and returns Reject — leaving the
running total unchanged — whenever that cost alone exceeds the limit,
regardless of the current occupancy or running total; otherwise (with limit
and total under the `MAX_LIMIT` cap, so the addition cannot overflow) it adds
the cost to the running total and returns Evict if the new total exceeds the
limit, else Accept. -/
theorem C6_cost_on_add {K V : Type} (kc : K → Nat) (vc : V → Nat)
    (c : CostState) (k : K) (v : V) :
    (c.limit < kc k + vc v →
      CostLimited.on_add kc vc c k v = some (AddBehavior.Reject, c)) ∧
    (kc k + vc v ≤ c.limit → c.limit ≤ CostLimited.MAX_LIMIT →
      c.current ≤ CostLimited.MAX_LIMIT →
      CostLimited.on_add kc vc c k v =
        some (if c.limit < c.current + (kc k + vc v) then AddBehavior.Evict
              else AddBehavior.Accept,
          ⟨c.limit, c.current + (kc k + vc v)⟩)) := by
  rw [CostLimited.on_add_spec]
  constructor
  · intro h
    simp [h]
  · intro h1 h2 h3
    have hm : CostLimited.MAX_LIMIT + CostLimited.MAX_LIMIT ≤ USIZE_MAX := by
      norm_num [CostLimited.MAX_LIMIT, USIZE_MAX]
    rw [if_neg (by omega), if_pos (by omega)]

/-- C6 witness: the Reject, Accept and Evict branches at concrete inputs. -/
theorem C6_cost_on_add_witness :
    CostLimited.on_add (fun k : Nat => k) (fun v : Nat => v) ⟨10, 4⟩ 5 6
        = some (AddBehavior.Reject, ⟨10, 4⟩) ∧
    CostLimited.on_add (fun k : Nat => k) (fun v : Nat => v) ⟨10, 4⟩ 1 2
        = some (AddBehavior.Accept, ⟨10, 7⟩) ∧
    CostLimited.on_add (fun k : Nat => k) (fun v : Nat => v) ⟨10, 4⟩ 3 4
        = some (AddBehavior.Evict, ⟨10, 11⟩) := by
  refine ⟨(C6_cost_on_add _ _ ⟨10, 4⟩ 5 6).1 (by decide), ?_, ?_⟩
  · have h := (C6_cost_on_add (fun k : Nat => k) (fun v : Nat => v)
      ⟨10, 4⟩ 1 2).2 (by decide) (by decide) (by decide)
    simpa using h
  · have h := (C6_cost_on_add (fun k : Nat => k) (fun v : Nat => v)
      ⟨10, 4⟩ 3 4).2 (by decide) (by decide) (by decide)
    simpa using h

/-- Universal form of the C2 refutation: `CostLimited::on_update` is not
capable of returning Reject — on every input on which it returns at all, the
behavior is Accept or Evict, because `update_cost` only ever produces those
two. -/
theorem cost_on_update_never_rejects {K V : Type} (kc : K → Nat)
    (vc : V → Nat) (c : CostState) (ok : K) (ov : V) (nk : Option K)
    (nv : Option V) :
    (CostLimited.on_update kc vc c ok ov nk nv).map Prod.fst
      ≠ some AddBehavior.Reject := by
  rw [CostLimited.on_update_spec]
  split
  · split
    · split <;> simp
    · simp
  · simp

/-- C2 counterexample: a concrete update whose new value cost (1000) far
exceeds the limit (10) — the one circumstance in which the claimed
Reject-capability would have to fire — yet `on_update` returns Evict (treated
exactly like Accept for updates) and commits the new total of 1000 instead of
rejecting; `cost_on_update_never_rejects` states the universal form. -/
theorem C2_cost_on_update_counterexample :
    CostLimited.on_update (fun k : Nat => k) (fun v : Nat => v) ⟨10, 5⟩ 0 5
        none (some 1000)
      = some (AddBehavior.Evict, ⟨10, 1000⟩) := by
  decide

/-- C2 (amended): `CostLimited::on_update` recomputes only the changed
dimension's delta (key xor value may be absent), subtracts the old delta and
adds the new one in a single committed step, and returns Evict when the new
total exceeds the limit, Accept otherwise — never Reject; on the underflow or
overflow panic nothing is committed. -/
theorem C2_cost_on_update_amended {K V : Type} (kc : K → Nat) (vc : V → Nat)
    (c : CostState) (ok : K) (ov : V) (nk : Option K) (nv : Option V) :
    CostLimited.on_update kc vc c ok ov nk nv =
      if prevCost kc vc ok ov nk nv ≤ c.current then
        if c.current - prevCost kc vc ok ov nk nv + nextCost kc vc nk nv
            ≤ USIZE_MAX then
          some (if c.limit < c.current - prevCost kc vc ok ov nk nv
                    + nextCost kc vc nk nv
                then AddBehavior.Evict else AddBehavior.Accept,
            ⟨c.limit,
             c.current - prevCost kc vc ok ov nk nv + nextCost kc vc nk nv⟩)
        else none
      else none :=
  CostLimited.on_update_spec kc vc c ok ov nk nv

/-- C4 (code defect): `set_limit` does enforce the `MAX_LIMIT` cap, yet the
`checked_add` failure branch of `add_cost` is reachable under that cap: with
the limit at `MAX_LIMIT` and key cost 0 / value cost the value itself, the
reachable trace put(1,5); put(2,0) leaves the running total at 5, and then
put(2, usize::MAX) — an update of a resident entry to a value of cost
`usize::MAX` — hits the overflow panic inside `on_update`, contradicting the
panic message "This shouldn't be possible because of the MAX_LIMIT". -/
theorem C4_overflow_reachable :
    CostLimited.set_limit ⟨0, 0⟩ (CostLimited.MAX_LIMIT + 1) = none ∧
    CostLimited.set_limit ⟨0, 0⟩ CostLimited.MAX_LIMIT
        = some ⟨CostLimited.MAX_LIMIT, 0⟩ ∧
    LruCache.put (CostLimited.limiter (fun _ : Nat => 0) (fun v : Nat => v))
        ⟨[], ⟨CostLimited.MAX_LIMIT, 0⟩⟩ 1 5
      = some (none, ⟨[(1, 5)], ⟨CostLimited.MAX_LIMIT, 5⟩⟩) ∧
    LruCache.put (CostLimited.limiter (fun _ : Nat => 0) (fun v : Nat => v))
        ⟨[(1, 5)], ⟨CostLimited.MAX_LIMIT, 5⟩⟩ 2 0
      = some (none, ⟨[(2, 0), (1, 5)], ⟨CostLimited.MAX_LIMIT, 5⟩⟩) ∧
    LruCache.put (CostLimited.limiter (fun _ : Nat => 0) (fun v : Nat => v))
        ⟨[(2, 0), (1, 5)], ⟨CostLimited.MAX_LIMIT, 5⟩⟩ 2 USIZE_MAX
      = none ∧
    CostLimited.add_cost 5 USIZE_MAX = none := by
  decide

/-- C1 (code defect): trace refuting the self-skip clause of `take_evicted`.
Cost-limited cache, limit 10, key cost 0, value cost the value itself:
put(1,1); put(2,8); then the insertion `entry(3).insert(9)` evicts (1,1) but
leaves the total at 17 > 10; demoting the freshly inserted view's node to the
LRU position and draining: the first call yields the pending pair (1,1); the
second call finds the cache still oversized with LRU node = the view's own
node, and — because the LRU node's successor is the sigil, so `other.next()`
fails — returns `none` and fuses the view, even though another LRU candidate,
(2,8), is still resident; the claim instead requires (2,8) to be evicted and
returned. -/
theorem C1_take_evicted_self_skip_trace :
    LruCache.put (CostLimited.limiter (fun _ : Nat => 0) (fun v : Nat => v))
        ⟨[], ⟨10, 0⟩⟩ 1 1 = some (none, ⟨[(1, 1)], ⟨10, 1⟩⟩) ∧
    LruCache.put (CostLimited.limiter (fun _ : Nat => 0) (fun v : Nat => v))
        ⟨[(1, 1)], ⟨10, 1⟩⟩ 2 8
      = some (none, ⟨[(2, 8), (1, 1)], ⟨10, 9⟩⟩) ∧
    VacantEntry.try_insert_entry
        (CostLimited.limiter (fun _ : Nat => 0) (fun v : Nat => v))
        ⟨[(2, 8), (1, 1)], ⟨10, 9⟩⟩ 3 9
      = some (Sum.inl ⟨⟨[(3, 9), (2, 8)], ⟨10, 17⟩⟩, 3,
          OccupiedExtra.evicted (some (1, 1))⟩) ∧
    OccupiedEntry.demote
        (⟨⟨[(3, 9), (2, 8)], ⟨10, 17⟩⟩, 3,
          OccupiedExtra.evicted (some (1, 1))⟩ : OccupiedEntry Nat Nat CostState)
      = ⟨⟨[(2, 8), (3, 9)], ⟨10, 17⟩⟩, 3, OccupiedExtra.evicted (some (1, 1))⟩ ∧
    OccupiedEntry.take_evicted
        (CostLimited.limiter (fun _ : Nat => 0) (fun v : Nat => v))
        ⟨⟨[(2, 8), (3, 9)], ⟨10, 17⟩⟩, 3, OccupiedExtra.evicted (some (1, 1))⟩
      = some (some (1, 1),
          ⟨⟨[(2, 8), (3, 9)], ⟨10, 17⟩⟩, 3, OccupiedExtra.evicted none⟩) ∧
    CostLimited.is_oversized ⟨10, 17⟩ = true ∧
    OccupiedEntry.take_evicted
        (CostLimited.limiter (fun _ : Nat => 0) (fun v : Nat => v))
        ⟨⟨[(2, 8), (3, 9)], ⟨10, 17⟩⟩, 3, OccupiedExtra.evicted none⟩
      = some (none, ⟨⟨[(2, 8), (3, 9)], ⟨10, 17⟩⟩, 3, OccupiedExtra.key⟩) := by
  decide

theorem costSum_promote (kc : K → Nat) (vc : V → Nat) (c : LruCache K V σ)
    (k : K) :
    costSum kc vc (c.promote k).list = costSum kc vc c.list := by
  unfold LruCache.promote
  cases hf : c.find_node k with
  | none => rfl
  | some p =>
    have hs := costSum_find? kc vc (fun p => p.1 == k) c.list p hf
    simp only [costSum, LruCache.detach_key]
    omega

theorem limiter_promote (c : LruCache K V σ) (k : K) :
    (c.promote k).limiter = c.limiter := by
  unfold LruCache.promote
  cases c.find_node k <;> rfl

theorem costSum_demote_key (kc : K → Nat) (vc : V → Nat) (c : LruCache K V σ)
    (k : K) :
    costSum kc vc (c.demote_key k).list = costSum kc vc c.list := by
  unfold LruCache.demote_key
  cases hf : c.find_node k with
  | none => rfl
  | some p =>
    have hs := costSum_find? kc vc (fun p => p.1 == k) c.list p hf
    simp only [costSum_append, costSum, LruCache.detach_key]
    omega

theorem limiter_demote_key (c : LruCache K V σ) (k : K) :
    (c.demote_key k).limiter = c.limiter := by
  unfold LruCache.demote_key
  cases c.find_node k <;> rfl

theorem costLimiter_on_add (kc : K → Nat) (vc : V → Nat) (s : CostState)
    (len : Nat) (k : K) (v : V) :
    (CostLimited.limiter kc vc).on_add s len k v
      = CostLimited.on_add kc vc s k v := rfl

theorem costLimiter_on_update (kc : K → Nat) (vc : V → Nat) (s : CostState)
    (ok : K) (ov : V) (nk : Option K) (nv : Option V) :
    (CostLimited.limiter kc vc).on_update s ok ov nk nv
      = CostLimited.on_update kc vc s ok ov nk nv := rfl

theorem costLimiter_on_remove (kc : K → Nat) (vc : V → Nat) (s : CostState)
    (k : K) (v : V) :
    (CostLimited.limiter kc vc).on_remove s k v
      = CostLimited.on_remove kc vc s k v := rfl

theorem try_insert_entry_reject (L : Limiter K V σ) (c : LruCache K V σ)
    (k : K) (v : V) (s : σ)
    (h : L.on_add c.limiter c.len k v = some (AddBehavior.Reject, s)) :
    VacantEntry.try_insert_entry L c k v
      = some (Sum.inr ((k, v), ⟨c.list, s⟩)) := by
  simp only [VacantEntry.try_insert_entry, h, Option.some_bind]

theorem try_insert_entry_accept (L : Limiter K V σ) (c : LruCache K V σ)
    (k : K) (v : V) (s : σ)
    (h : L.on_add c.limiter c.len k v = some (AddBehavior.Accept, s)) :
    VacantEntry.try_insert_entry L c k v
      = some (Sum.inl ⟨⟨(k, v) :: c.list, s⟩, k, OccupiedExtra.evicted none⟩) := by
  simp only [VacantEntry.try_insert_entry, h, Option.some_bind]

theorem try_insert_entry_panic (L : Limiter K V σ) (c : LruCache K V σ)
    (k : K) (v : V) (h : L.on_add c.limiter c.len k v = none) :
    VacantEntry.try_insert_entry L c k v = none := by
  simp only [VacantEntry.try_insert_entry, h, Option.none_bind]

theorem try_insert_entry_evict_empty (L : Limiter K V σ) (c : LruCache K V σ)
    (k : K) (v : V) (s : σ)
    (h : L.on_add c.limiter c.len k v = some (AddBehavior.Evict, s))
    (hemp : c.list = []) :
    VacantEntry.try_insert_entry L c k v
      = some (Sum.inl ⟨⟨[(k, v)], s⟩, k, OccupiedExtra.evicted none⟩) := by
  have he : c.is_empty = true := by
    simp [LruCache.is_empty, LruCache.len, hemp]
  simp only [VacantEntry.try_insert_entry, h, Option.some_bind, he, if_true, hemp]

theorem try_insert_entry_evict (L : Limiter K V σ) (c : LruCache K V σ)
    (k : K) (v : V) (s s2 : σ) (lru : K × V)
    (h : L.on_add c.limiter c.len k v = some (AddBehavior.Evict, s))
    (hlast : c.list.getLast? = some lru)
    (h2 : L.on_remove s lru.1 lru.2 = some s2) :
    VacantEntry.try_insert_entry L c k v
      = some (Sum.inl ⟨⟨(k, v) :: c.list.dropLast, s2⟩, k,
          OccupiedExtra.evicted (some lru)⟩) := by
  have hne : c.list ≠ [] := by
    intro hx
    rw [hx] at hlast
    simp at hlast
  have he : c.is_empty = false := by
    simp only [LruCache.is_empty, LruCache.len, beq_eq_false_iff_ne, ne_eq,
      List.length_eq_zero]
    exact hne
  simp only [VacantEntry.try_insert_entry, h, Option.some_bind, he,
    Bool.false_eq_true, if_false, hlast, h2, Option.map_some']

theorem try_insert_entry_evict_panic (L : Limiter K V σ) (c : LruCache K V σ)
    (k : K) (v : V) (s : σ) (lru : K × V)
    (h : L.on_add c.limiter c.len k v = some (AddBehavior.Evict, s))
    (hlast : c.list.getLast? = some lru)
    (h2 : L.on_remove s lru.1 lru.2 = none) :
    VacantEntry.try_insert_entry L c k v = none := by
  have hne : c.list ≠ [] := by
    intro hx
    rw [hx] at hlast
    simp at hlast
  have he : c.is_empty = false := by
    simp only [LruCache.is_empty, LruCache.len, beq_eq_false_iff_ne, ne_eq,
      List.length_eq_zero]
    exact hne
  simp only [VacantEntry.try_insert_entry, h, Option.some_bind, he,
    Bool.false_eq_true, if_false, hlast, h2, Option.map_none']

theorem costInv_take_evicted (kc : K → Nat) (vc : V → Nat)
    (e e2 : OccupiedEntry K V CostState) (r : Option (K × V))
    (h : e.take_evicted (CostLimited.limiter kc vc) = some (r, e2))
    (hinv : CostInvariant kc vc e.cache) : CostInvariant kc vc e2.cache := by
  obtain ⟨c, nk, extra⟩ := e
  cases extra with
  | key =>
    simp only [OccupiedEntry.take_evicted, Option.some.injEq, Prod.mk.injEq] at h
    obtain ⟨hr, he⟩ := h
    subst he
    exact hinv
  | evicted pending =>
    cases pending with
    | some pair =>
      simp only [OccupiedEntry.take_evicted, Option.some.injEq, Prod.mk.injEq] at h
      obtain ⟨hr, he⟩ := h
      subst he
      exact hinv
    | none =>
      simp only [OccupiedEntry.take_evicted] at h
      by_cases ho : (CostLimited.limiter kc vc).is_oversized c.limiter c.len = true
      · rw [if_pos ho] at h
        cases hlast : c.list.getLast? with
        | none =>
          rw [hlast] at h
          simp only [Option.some.injEq, Prod.mk.injEq] at h
          obtain ⟨hr, he⟩ := h
          subst he
          exact hinv
        | some other =>
          rw [hlast] at h
          simp only [] at h
          by_cases hk : (other.1 == nk) = true
          · rw [if_pos hk] at h
            simp only [Option.some.injEq, Prod.mk.injEq] at h
            obtain ⟨hr, he⟩ := h
            subst he
            exact hinv
          · rw [if_neg hk, costLimiter_on_remove, CostLimited.on_remove_spec] at h
            by_cases h4 : kc other.1 + vc other.2 ≤ c.limiter.current
            · rw [if_pos h4, Option.map_some'] at h
              simp only [Option.some.injEq, Prod.mk.injEq] at h
              obtain ⟨hr, he⟩ := h
              subst he
              have hs := costSum_getLast? kc vc c.list other hlast
              simp only [CostInvariant, CostLimited.current] at hinv ⊢
              omega
            · rw [if_neg h4] at h
              simp at h
      · rw [if_neg ho] at h
        simp only [Option.some.injEq, Prod.mk.injEq] at h
        obtain ⟨hr, he⟩ := h
        subst he
        exact hinv

theorem costInv_drainLoop (kc : K → Nat) (vc : V → Nat) (fuel : Nat) :
    ∀ (e : OccupiedEntry K V CostState) (c2 : LruCache K V CostState),
      drainLoop (CostLimited.limiter kc vc) fuel e = some c2 →
      CostInvariant kc vc e.cache → CostInvariant kc vc c2 := by
  induction fuel with
  | zero =>
    intro e c2 h
    simp [drainLoop] at h
  | succ n ih =>
    intro e c2 h hinv
    rw [drainLoop] at h
    cases hte : e.take_evicted (CostLimited.limiter kc vc) with
    | none => rw [hte] at h; simp at h
    | some te =>
      obtain ⟨p, e2⟩ := te
      rw [hte] at h
      cases p with
      | none =>
        simp only [Option.some.injEq] at h
        subst h
        exact costInv_take_evicted kc vc e e2 none hte hinv
      | some pair =>
        exact ih e2 c2 h (costInv_take_evicted kc vc e e2 (some pair) hte hinv)

theorem costInv_try_insert_entry (kc : K → Nat) (vc : V → Nat)
    (c : LruCache K V CostState) (k : K) (v : V)
    (res : Sum (OccupiedEntry K V CostState) ((K × V) × LruCache K V CostState))
    (h : VacantEntry.try_insert_entry (CostLimited.limiter kc vc) c k v = some res)
    (hinv : CostInvariant kc vc c) :
    CostInvariant kc vc
      (match res with
       | Sum.inl e => e.cache
       | Sum.inr pc => pc.2) := by
  have hadd := CostLimited.on_add_spec kc vc c.limiter k v
  by_cases h1 : c.limiter.limit < kc k + vc v
  · rw [if_pos h1] at hadd
    rw [try_insert_entry_reject (CostLimited.limiter kc vc) c k v c.limiter
      (by rw [costLimiter_on_add]; exact hadd)] at h
    simp only [Option.some.injEq] at h
    subst h
    exact hinv
  · rw [if_neg h1] at hadd
    by_cases h2 : c.limiter.current + (kc k + vc v) ≤ USIZE_MAX
    · rw [if_pos h2] at hadd
      by_cases h3 : c.limiter.limit < c.limiter.current + (kc k + vc v)
      · rw [if_pos h3] at hadd
        cases hlast : c.list.getLast? with
        | none =>
          have hemp : c.list = [] := List.getLast?_eq_none_iff.mp hlast
          rw [try_insert_entry_evict_empty (CostLimited.limiter kc vc) c k v _
            (by rw [costLimiter_on_add]; exact hadd) hemp] at h
          simp only [Option.some.injEq] at h
          subst h
          simp only [CostInvariant, CostLimited.current, costSum] at hinv ⊢
          rw [hemp] at hinv
          simp only [costSum] at hinv
          omega
        | some lru =>
          have hrem : CostLimited.on_remove kc vc
              ⟨c.limiter.limit, c.limiter.current + (kc k + vc v)⟩ lru.1 lru.2
              = if kc lru.1 + vc lru.2 ≤ c.limiter.current + (kc k + vc v) then
                  some ⟨c.limiter.limit,
                    c.limiter.current + (kc k + vc v) - (kc lru.1 + vc lru.2)⟩
                else none :=
            CostLimited.on_remove_spec kc vc _ lru.1 lru.2
          by_cases h4 : kc lru.1 + vc lru.2 ≤ c.limiter.current + (kc k + vc v)
          · rw [if_pos h4] at hrem
            rw [try_insert_entry_evict (CostLimited.limiter kc vc) c k v _ _ lru
              (by rw [costLimiter_on_add]; exact hadd) hlast
              (by rw [costLimiter_on_remove]; exact hrem)] at h
            simp only [Option.some.injEq] at h
            subst h
            have hs := costSum_getLast? kc vc c.list lru hlast
            simp only [CostInvariant, CostLimited.current, costSum] at hinv ⊢
            omega
          · rw [if_neg h4] at hrem
            rw [try_insert_entry_evict_panic (CostLimited.limiter kc vc) c k v _ lru
              (by rw [costLimiter_on_add]; exact hadd) hlast
              (by rw [costLimiter_on_remove]; exact hrem)] at h
            simp at h
      · rw [if_neg h3] at hadd
        rw [try_insert_entry_accept (CostLimited.limiter kc vc) c k v _
          (by rw [costLimiter_on_add]; exact hadd)] at h
        simp only [Option.some.injEq] at h
        subst h
        simp only [CostInvariant, CostLimited.current, costSum] at hinv ⊢
        omega
    · rw [if_neg h2] at hadd
      rw [try_insert_entry_panic (CostLimited.limiter kc vc) c k v
        (by rw [costLimiter_on_add]; exact hadd)] at h
      simp at h

theorem costInv_put (kc : K → Nat) (vc : V → Nat) (c : LruCache K V CostState)
    (k : K) (v : V) (r : Option V) (c2 : LruCache K V CostState)
    (h : c.put (CostLimited.limiter kc vc) k v = some (r, c2))
    (hinv : CostInvariant kc vc c) : CostInvariant kc vc c2 := by
  unfold LruCache.put at h
  cases hf : c.find_node k with
  | some p =>
    simp only [hf] at h
    rw [costLimiter_on_update, CostLimited.on_update_spec] at h
    by_cases h1 : prevCost kc vc p.1 p.2 none (some v) ≤ c.limiter.current
    · rw [if_pos h1] at h
      by_cases h2 : c.limiter.current - prevCost kc vc p.1 p.2 none (some v)
          + nextCost kc vc none (some v) ≤ USIZE_MAX
      · rw [if_pos h2, Option.some_bind] at h
        have hf2 : c.list.find? (fun q => q.1 == k) = some p := hf
        have hs := costSum_find? kc vc (fun q => q.1 == k) c.list p hf2
        by_cases h3 : c.limiter.limit < c.limiter.current
            - prevCost kc vc p.1 p.2 none (some v) + nextCost kc vc none (some v)
        · rw [if_pos h3] at h
          simp only [Option.some.injEq, Prod.mk.injEq] at h
          obtain ⟨hr, hc⟩ := h
          subst hc
          simp only [prevCost, nextCost] at h1 ⊢
          simp only [CostInvariant, CostLimited.current, costSum,
            LruCache.detach_key] at hinv ⊢
          omega
        · rw [if_neg h3] at h
          simp only [Option.some.injEq, Prod.mk.injEq] at h
          obtain ⟨hr, hc⟩ := h
          subst hc
          simp only [prevCost, nextCost] at h1 ⊢
          simp only [CostInvariant, CostLimited.current, costSum,
            LruCache.detach_key] at hinv ⊢
          omega
      · rw [if_neg h2] at h
        simp at h
    · rw [if_neg h1] at h
      simp at h
  | none =>
    rw [hf] at h
    cases hins : VacantEntry.try_insert_entry (CostLimited.limiter kc vc) c k v with
    | none => rw [hins] at h; simp at h
    | some res =>
      rw [hins, Option.some_bind] at h
      have hres := costInv_try_insert_entry kc vc c k v res hins hinv
      cases res with
      | inr pc =>
        simp only [Option.some.injEq, Prod.mk.injEq] at h
        obtain ⟨hr, hc⟩ := h
        subst hc
        exact hres
      | inl e =>
        simp only [Option.map_eq_some'] at h
        obtain ⟨c3, hd, hpair⟩ := h
        simp only [Prod.mk.injEq] at hpair
        obtain ⟨hr, hc⟩ := hpair
        subst hc
        rw [OccupiedEntry.drop_drain] at hd
        apply costInv_drainLoop kc vc _ _ c3 hd
        simp only [CostInvariant, CostLimited.current] at hres ⊢
        rw [limiter_promote, costSum_promote]
        exact hres

theorem costInv_push (kc : K → Nat) (vc : V → Nat) (c : LruCache K V CostState)
    (k : K) (v : V) (r : Option (K × V)) (c2 : LruCache K V CostState)
    (h : c.push (CostLimited.limiter kc vc) k v = some (r, c2))
    (hinv : CostInvariant kc vc c) : CostInvariant kc vc c2 := by
  unfold LruCache.push at h
  cases hf : c.find_node k with
  | some p =>
    simp only [hf] at h
    rw [costLimiter_on_update, CostLimited.on_update_spec] at h
    by_cases h1 : prevCost kc vc p.1 p.2 (some k) (some v) ≤ c.limiter.current
    · rw [if_pos h1] at h
      by_cases h2 : c.limiter.current - prevCost kc vc p.1 p.2 (some k) (some v)
          + nextCost kc vc (some k) (some v) ≤ USIZE_MAX
      · rw [if_pos h2, Option.some_bind] at h
        have hf2 : c.list.find? (fun q => q.1 == k) = some p := hf
        have hs := costSum_find? kc vc (fun q => q.1 == k) c.list p hf2
        by_cases h3 : c.limiter.limit < c.limiter.current
            - prevCost kc vc p.1 p.2 (some k) (some v)
            + nextCost kc vc (some k) (some v)
        · rw [if_pos h3] at h
          simp only [Option.some.injEq, Prod.mk.injEq] at h
          obtain ⟨hr, hc⟩ := h
          subst hc
          simp only [prevCost, nextCost] at h1 ⊢
          simp only [CostInvariant, CostLimited.current, costSum,
            LruCache.detach_key] at hinv ⊢
          omega
        · rw [if_neg h3] at h
          simp only [Option.some.injEq, Prod.mk.injEq] at h
          obtain ⟨hr, hc⟩ := h
          subst hc
          simp only [prevCost, nextCost] at h1 ⊢
          simp only [CostInvariant, CostLimited.current, costSum,
            LruCache.detach_key] at hinv ⊢
          omega
      · rw [if_neg h2] at h
        simp at h
    · rw [if_neg h1] at h
      simp at h
  | none =>
    rw [hf] at h
    cases hins : VacantEntry.try_insert_entry (CostLimited.limiter kc vc) c k v with
    | none => rw [hins] at h; simp at h
    | some res =>
      rw [hins, Option.some_bind] at h
      have hres := costInv_try_insert_entry kc vc c k v res hins hinv
      cases res with
      | inr pc =>
        simp only [Option.some.injEq, Prod.mk.injEq] at h
        obtain ⟨hr, hc⟩ := h
        subst hc
        exact hres
      | inl e =>
        simp only [] at h
        cases hte : e.take_evicted (CostLimited.limiter kc vc) with
        | none => rw [hte] at h; simp at h
        | some te =>
          rw [hte, Option.some_bind] at h
          have hte2 := costInv_take_evicted kc vc e te.2 te.1 (by rw [hte]) hres
          simp only [Option.map_eq_some'] at h
          obtain ⟨c3, hd, hpair⟩ := h
          simp only [Prod.mk.injEq] at hpair
          obtain ⟨hr, hc⟩ := hpair
          subst hc
          rw [OccupiedEntry.drop_drain] at hd
          exact costInv_drainLoop kc vc _ _ c3 hd hte2

theorem costInv_get (kc : K → Nat) (vc : V → Nat) (c : LruCache K V CostState)
    (k : K) (hinv : CostInvariant kc vc c) : CostInvariant kc vc (c.get k).2 := by
  unfold LruCache.get
  cases hf : c.find_node k with
  | none => exact hinv
  | some p =>
    simp only [CostInvariant, CostLimited.current] at hinv ⊢
    rw [limiter_promote, costSum_promote]
    exact hinv

theorem costInv_pop_entry (kc : K → Nat) (vc : V → Nat)
    (c : LruCache K V CostState) (k : K) (r : Option (K × V))
    (c2 : LruCache K V CostState)
    (h : c.pop_entry (CostLimited.limiter kc vc) k = some (r, c2))
    (hinv : CostInvariant kc vc c) : CostInvariant kc vc c2 := by
  unfold LruCache.pop_entry at h
  cases hf : c.find_node k with
  | none =>
    rw [hf] at h
    simp only [Option.some.injEq, Prod.mk.injEq] at h
    obtain ⟨hr, hc⟩ := h
    subst hc
    exact hinv
  | some p =>
    rw [hf] at h
    simp only [CostLimited.limiter] at h
    rw [CostLimited.on_remove_spec] at h
    split at h
    · simp only [Option.map_some', Option.some.injEq, Prod.mk.injEq] at h
      obtain ⟨hr, hc⟩ := h
      subst hc
      have hs := costSum_find? kc vc (fun p => p.1 == k) c.list p hf
      simp only [CostInvariant, CostLimited.current, LruCache.detach_key] at *
      omega
    · simp at h

theorem costInv_pop_lru (kc : K → Nat) (vc : V → Nat)
    (c : LruCache K V CostState) (r : Option (K × V))
    (c2 : LruCache K V CostState)
    (h : c.pop_lru (CostLimited.limiter kc vc) = some (r, c2))
    (hinv : CostInvariant kc vc c) : CostInvariant kc vc c2 := by
  unfold LruCache.pop_lru at h
  cases hlast : c.list.getLast? with
  | none =>
    rw [hlast] at h
    simp only [Option.some.injEq, Prod.mk.injEq] at h
    obtain ⟨hr, hc⟩ := h
    subst hc
    exact hinv
  | some p =>
    rw [hlast] at h
    simp only [CostLimited.limiter] at h
    rw [CostLimited.on_remove_spec] at h
    split at h
    · simp only [Option.map_some', Option.some.injEq, Prod.mk.injEq] at h
      obtain ⟨hr, hc⟩ := h
      subst hc
      have hs := costSum_getLast? kc vc c.list p hlast
      simp only [CostInvariant, CostLimited.current] at *
      omega
    · simp at h

theorem costInv_runOp (kc : K → Nat) (vc : V → Nat) (c : LruCache K V CostState)
    (op : CacheOp K V) (c2 : LruCache K V CostState)
    (h : runOp (CostLimited.limiter kc vc) c op = some c2)
    (hinv : CostInvariant kc vc c) : CostInvariant kc vc c2 := by
  cases op with
  | put k v =>
    simp only [runOp] at h
    cases hp : c.put (CostLimited.limiter kc vc) k v with
    | none => rw [hp] at h; simp at h
    | some rc =>
      rw [hp] at h
      simp only [Option.map_some', Option.some.injEq] at h
      subst h
      exact costInv_put kc vc c k v rc.1 rc.2 (by rw [hp]) hinv
  | push k v =>
    simp only [runOp] at h
    cases hp : c.push (CostLimited.limiter kc vc) k v with
    | none => rw [hp] at h; simp at h
    | some rc =>
      rw [hp] at h
      simp only [Option.map_some', Option.some.injEq] at h
      subst h
      exact costInv_push kc vc c k v rc.1 rc.2 (by rw [hp]) hinv
  | get k =>
    simp only [runOp, Option.some.injEq] at h
    subst h
    exact costInv_get kc vc c k hinv
  | pop k =>
    simp only [runOp] at h
    cases hp : c.pop_entry (CostLimited.limiter kc vc) k with
    | none => rw [hp] at h; simp at h
    | some rc =>
      rw [hp] at h
      simp only [Option.map_some', Option.some.injEq] at h
      subst h
      exact costInv_pop_entry kc vc c k rc.1 rc.2 (by rw [hp]) hinv
  | popLru =>
    simp only [runOp] at h
    cases hp : c.pop_lru (CostLimited.limiter kc vc) with
    | none => rw [hp] at h; simp at h
    | some rc =>
      rw [hp] at h
      simp only [Option.map_some', Option.some.injEq] at h
      subst h
      exact costInv_pop_lru kc vc c rc.1 rc.2 (by rw [hp]) hinv
  | promote k =>
    simp only [runOp, Option.some.injEq] at h
    subst h
    simp only [CostInvariant, CostLimited.current] at hinv ⊢
    rw [limiter_promote, costSum_promote]
    exact hinv
  | demote k =>
    simp only [runOp, Option.some.injEq] at h
    subst h
    simp only [CostInvariant, CostLimited.current] at hinv ⊢
    rw [limiter_demote_key, costSum_demote_key]
    exact hinv

theorem costInv_runOps (kc : K → Nat) (vc : V → Nat)
    (ops : List (CacheOp K V)) :
    ∀ (c c2 : LruCache K V CostState),
      runOps (CostLimited.limiter kc vc) c ops = some c2 →
      CostInvariant kc vc c → CostInvariant kc vc c2 := by
  induction ops with
  | nil =>
    intro c c2 h hinv
    simp only [runOps, Option.some.injEq] at h
    subst h
    exact hinv
  | cons op ops ih =>
    intro c c2 h hinv
    simp only [runOps] at h
    cases ho : runOp (CostLimited.limiter kc vc) c op with
    | none => rw [ho] at h; simp at h
    | some c3 =>
      rw [ho] at h
      rw [Option.some_bind] at h
      exact ih c3 c2 h (costInv_runOp kc vc c op c3 ho hinv)

/-- C3: for a cache with a `CostLimited` limiter (whose cost functions, being
pure, are referentially stable), after every sequence of top-level operations
that completes — in particular after every sequence whose limiter decisions
were all Accept or Evict — the running total reported by `current()` equals
the sum of `key_cost(k) + value_cost(v)` over the currently resident
entries. -/
theorem C3_cost_invariant {K V : Type} [DecidableEq K] (kc : K → Nat)
    (vc : V → Nat) (c0 c1 : LruCache K V CostState) (ops : List (CacheOp K V))
    (hinv : CostInvariant kc vc c0)
    (h : runOps (CostLimited.limiter kc vc) c0 ops = some c1) :
    CostLimited.current c1.limiter = costSum kc vc c1.list :=
  costInv_runOps kc vc ops c0 c1 h hinv

/-- C3 witness: a concrete operation sequence from the empty cache. -/
theorem C3_cost_invariant_witness :
    CostInvariant (fun k : Nat => k) (fun v : Nat => v)
        (⟨[], ⟨100, 0⟩⟩ : LruCache Nat Nat CostState) ∧
    runOps (CostLimited.limiter (fun k : Nat => k) (fun v : Nat => v))
        ⟨[], ⟨100, 0⟩⟩
        [CacheOp.put 1 2, CacheOp.put 3 4, CacheOp.get 1, CacheOp.push 3 9,
         CacheOp.pop 1, CacheOp.promote 3, CacheOp.demote 3]
      = some ⟨[(3, 9)], ⟨100, 12⟩⟩ ∧
    CostLimited.current (⟨100, 12⟩ : CostState)
      = costSum (fun k : Nat => k) (fun v : Nat => v) [(3, 9)] :=
  ⟨rfl, by decide,
    C3_cost_invariant (fun k => k) (fun v => v) ⟨[], ⟨100, 0⟩⟩ ⟨[(3, 9)], ⟨100, 12⟩⟩
      [CacheOp.put 1 2, CacheOp.put 3 4, CacheOp.get 1, CacheOp.push 3 9,
       CacheOp.pop 1, CacheOp.promote 3, CacheOp.demote 3]
      rfl (by decide)⟩

theorem sizeLimiter_on_add (s len : Nat) (k : K) (v : V) :
    (SizeLimited.limiter K V).on_add s len k v
      = some (SizeLimited.on_add s len, s) := rfl

theorem sizeLimiter_on_update (s : Nat) (ok : K) (ov : V) (nk : Option K)
    (nv : Option V) :
    (SizeLimited.limiter K V).on_update s ok ov nk nv
      = some (AddBehavior.Accept, s) := rfl

theorem sizeLimiter_on_remove (s : Nat) (k : K) (v : V) :
    (SizeLimited.limiter K V).on_remove s k v = some s := rfl

theorem size_on_add_cases (limit len : Nat) :
    SizeLimited.on_add limit len =
      if limit = 0 then AddBehavior.Reject
      else if limit ≤ len then AddBehavior.Evict
      else AddBehavior.Accept := by
  unfold SizeLimited.on_add
  by_cases h : limit = 0
  · simp [h]
  · rw [if_neg (by simpa using h), if_neg h]

theorem promote_mru (k : K) (v : V) (l : List (K × V)) (s : σ) :
    (⟨(k, v) :: l, s⟩ : LruCache K V σ).promote k = ⟨(k, v) :: l, s⟩ := by
  have hf : (⟨(k, v) :: l, s⟩ : LruCache K V σ).find_node k = some (k, v) := by
    simp [LruCache.find_node, List.find?_cons]
  have hd : (⟨(k, v) :: l, s⟩ : LruCache K V σ).detach_key k = l := by
    simp [LruCache.detach_key, List.eraseP_cons]
  unfold LruCache.promote
  simp only [hf, hd]

theorem take_evicted_key (L : Limiter K V σ) (c : LruCache K V σ) (k : K) :
    OccupiedEntry.take_evicted L ⟨c, k, OccupiedExtra.key⟩
      = some (none, ⟨c, k, OccupiedExtra.key⟩) := rfl

theorem take_evicted_pending (L : Limiter K V σ) (c : LruCache K V σ) (k : K)
    (pair : K × V) :
    OccupiedEntry.take_evicted L ⟨c, k, OccupiedExtra.evicted (some pair)⟩
      = some (some pair, ⟨c, k, OccupiedExtra.evicted none⟩) := rfl

theorem take_evicted_not_oversized (L : Limiter K V σ) (c : LruCache K V σ)
    (k : K) (hno : L.is_oversized c.limiter c.len = false) :
    OccupiedEntry.take_evicted L ⟨c, k, OccupiedExtra.evicted none⟩
      = some (none, ⟨c, k, OccupiedExtra.key⟩) := by
  simp [OccupiedEntry.take_evicted, hno]

theorem drainLoop_not_oversized (L : Limiter K V σ) (fuel : Nat)
    (c : LruCache K V σ) (k : K)
    (hno : L.is_oversized c.limiter c.len = false) :
    drainLoop L (fuel + 1) ⟨c, k, OccupiedExtra.evicted none⟩ = some c := by
  rw [drainLoop, take_evicted_not_oversized L c k hno]

theorem drainLoop_pending_not_oversized (L : Limiter K V σ) (fuel : Nat)
    (c : LruCache K V σ) (k : K) (pair : K × V)
    (hno : L.is_oversized c.limiter c.len = false) :
    drainLoop L (fuel + 2) ⟨c, k, OccupiedExtra.evicted (some pair)⟩ = some c := by
  have h2 : fuel + 2 = (fuel + 1) + 1 := rfl
  rw [h2, drainLoop, take_evicted_pending]
  exact drainLoop_not_oversized L fuel c k hno

theorem drop_drain_key (L : Limiter K V σ) (c : LruCache K V σ) (k : K) :
    OccupiedEntry.drop_drain L ⟨c, k, OccupiedExtra.key⟩ = some c := by
  rw [OccupiedEntry.drop_drain]
  have h2 : (⟨c, k, OccupiedExtra.key⟩ : OccupiedEntry K V σ).cache.len + 2
      = ((c.len + 1) + 1) := rfl
  rw [h2, drainLoop, take_evicted_key]

theorem drop_drain_evicted_none_not_oversized (L : Limiter K V σ)
    (c : LruCache K V σ) (k : K)
    (hno : L.is_oversized c.limiter c.len = false) :
    OccupiedEntry.drop_drain L ⟨c, k, OccupiedExtra.evicted none⟩ = some c :=
  drainLoop_not_oversized L (c.len + 1) c k hno

theorem drop_drain_pending_not_oversized (L : Limiter K V σ)
    (c : LruCache K V σ) (k : K) (pair : K × V)
    (hno : L.is_oversized c.limiter c.len = false) :
    OccupiedEntry.drop_drain L ⟨c, k, OccupiedExtra.evicted (some pair)⟩
      = some c :=
  drainLoop_pending_not_oversized L c.len c k pair hno

theorem put_occupied_spec (L : Limiter K V σ) (c : LruCache K V σ) (k : K)
    (v : V) (p : K × V) (b : AddBehavior) (s : σ)
    (hp : c.find_node k = some p)
    (hup : L.on_update c.limiter p.1 p.2 none (some v) = some (b, s))
    (hb : b ≠ AddBehavior.Reject) :
    c.put L k v = some (some p.2, ⟨(p.1, v) :: c.detach_key k, s⟩) := by
  unfold LruCache.put
  simp only [hp]
  rw [hup, Option.some_bind]
  cases b with
  | Reject => exact absurd rfl hb
  | Evict => rfl
  | Accept => rfl

theorem put_vacant_reject_spec (L : Limiter K V σ) (c : LruCache K V σ)
    (k : K) (v : V) (habs : c.find_node k = none)
    (hrej : L.on_add c.limiter c.len k v
      = some (AddBehavior.Reject, c.limiter)) :
    c.put L k v = some (some v, c) := by
  unfold LruCache.put
  simp only [habs]
  rw [try_insert_entry_reject L c k v c.limiter hrej, Option.some_bind]

theorem size_put_vacant_accept (limit : Nat) (l : List (K × V)) (k : K) (v : V)
    (hlt : l.length < limit)
    (habs : (⟨l, limit⟩ : LruCache K V Nat).find_node k = none) :
    LruCache.put (SizeLimited.limiter K V) ⟨l, limit⟩ k v
      = some (none, ⟨(k, v) :: l, limit⟩) := by
  have hadd : (SizeLimited.limiter K V).on_add limit l.length k v
      = some (AddBehavior.Accept, limit) := by
    rw [sizeLimiter_on_add, size_on_add_cases,
      if_neg (by omega), if_neg (by omega)]
  unfold LruCache.put
  simp only [habs]
  rw [try_insert_entry_accept (SizeLimited.limiter K V) ⟨l, limit⟩ k v limit hadd,
    Option.some_bind]
  simp only []
  rw [promote_mru]
  rw [drop_drain_evicted_none_not_oversized (SizeLimited.limiter K V)
    ⟨(k, v) :: l, limit⟩ k
    (by
      simp only [SizeLimited.limiter, SizeLimited.is_oversized, LruCache.len,
        List.length_cons, decide_eq_false_iff_not]
      omega)]
  rfl

theorem size_put_vacant_evict (N : Nat) (l : List (K × V)) (k : K) (v : V)
    (hN : 0 < N) (hlen : l.length = N)
    (habs : (⟨l, N⟩ : LruCache K V Nat).find_node k = none) :
    LruCache.put (SizeLimited.limiter K V) ⟨l, N⟩ k v
      = some (none, ⟨(k, v) :: l.dropLast, N⟩) := by
  have hne : l ≠ [] := by
    intro hx
    rw [hx] at hlen
    simp at hlen
    omega
  obtain ⟨lru, hlast⟩ : ∃ lru, l.getLast? = some lru := by
    cases hl : l.getLast? with
    | none => exact absurd (List.getLast?_eq_none_iff.mp hl) hne
    | some x => exact ⟨x, rfl⟩
  have hadd : (SizeLimited.limiter K V).on_add N l.length k v
      = some (AddBehavior.Evict, N) := by
    rw [sizeLimiter_on_add, size_on_add_cases, if_neg (by omega), hlen,
      if_pos (le_refl N)]
  unfold LruCache.put
  simp only [habs]
  rw [try_insert_entry_evict (SizeLimited.limiter K V) ⟨l, N⟩ k v N N lru hadd
    hlast rfl, Option.some_bind]
  simp only []
  rw [promote_mru]
  rw [drop_drain_pending_not_oversized (SizeLimited.limiter K V)
    ⟨(k, v) :: l.dropLast, N⟩ k lru
    (by
      simp only [SizeLimited.limiter, SizeLimited.is_oversized, LruCache.len,
        List.length_cons, List.length_dropLast, hlen, decide_eq_false_iff_not]
      omega)]
  rfl

theorem size_putList_zero_cap (ps : List (K × V)) :
    putList (SizeLimited.limiter K V) ⟨[], 0⟩ ps = some ⟨[], 0⟩ := by
  induction ps with
  | nil => rfl
  | cons p ps ih =>
    unfold putList
    rw [put_vacant_reject_spec (SizeLimited.limiter K V) ⟨[], 0⟩ p.1 p.2 rfl rfl,
      Option.some_bind]
    exact ih

theorem push_occupied_spec (L : Limiter K V σ) (c : LruCache K V σ) (k : K)
    (v : V) (p : K × V) (b : AddBehavior) (s : σ)
    (hp : c.find_node k = some p)
    (hup : L.on_update c.limiter p.1 p.2 (some k) (some v) = some (b, s))
    (hb : b ≠ AddBehavior.Reject) :
    c.push L k v = some (some p, ⟨(k, v) :: c.detach_key k, s⟩) := by
  unfold LruCache.push
  simp only [hp]
  rw [hup, Option.some_bind]
  cases b with
  | Reject => exact absurd rfl hb
  | Evict => rfl
  | Accept => rfl

theorem push_vacant_reject_spec (L : Limiter K V σ) (c : LruCache K V σ)
    (k : K) (v : V) (habs : c.find_node k = none)
    (hrej : L.on_add c.limiter c.len k v
      = some (AddBehavior.Reject, c.limiter)) :
    c.push L k v = some (some (k, v), c) := by
  unfold LruCache.push
  simp only [habs]
  rw [try_insert_entry_reject L c k v c.limiter hrej, Option.some_bind]

theorem size_push_vacant_accept (limit : Nat) (l : List (K × V)) (k : K)
    (v : V) (hlt : l.length < limit)
    (habs : (⟨l, limit⟩ : LruCache K V Nat).find_node k = none) :
    LruCache.push (SizeLimited.limiter K V) ⟨l, limit⟩ k v
      = some (none, ⟨(k, v) :: l, limit⟩) := by
  have hadd : (SizeLimited.limiter K V).on_add limit l.length k v
      = some (AddBehavior.Accept, limit) := by
    rw [sizeLimiter_on_add, size_on_add_cases,
      if_neg (by omega), if_neg (by omega)]
  have hno : (SizeLimited.limiter K V).is_oversized limit
      ((⟨(k, v) :: l, limit⟩ : LruCache K V Nat)).len = false := by
    simp only [SizeLimited.limiter, SizeLimited.is_oversized, LruCache.len,
      List.length_cons, decide_eq_false_iff_not]
    omega
  unfold LruCache.push
  simp only [habs]
  rw [try_insert_entry_accept (SizeLimited.limiter K V) ⟨l, limit⟩ k v limit hadd,
    Option.some_bind]
  simp only []
  rw [take_evicted_not_oversized (SizeLimited.limiter K V) ⟨(k, v) :: l, limit⟩
    k hno, Option.some_bind]
  rw [drop_drain_key (SizeLimited.limiter K V) ⟨(k, v) :: l, limit⟩ k]
  rfl

theorem size_push_vacant_evict (N : Nat) (l : List (K × V)) (k : K) (v : V)
    (lru : K × V) (hN : 0 < N) (hlen : l.length = N)
    (hlast : l.getLast? = some lru)
    (habs : (⟨l, N⟩ : LruCache K V Nat).find_node k = none) :
    LruCache.push (SizeLimited.limiter K V) ⟨l, N⟩ k v
      = some (some lru, ⟨(k, v) :: l.dropLast, N⟩) := by
  have hadd : (SizeLimited.limiter K V).on_add N l.length k v
      = some (AddBehavior.Evict, N) := by
    rw [sizeLimiter_on_add, size_on_add_cases, if_neg (by omega), hlen,
      if_pos (le_refl N)]
  have hno : (SizeLimited.limiter K V).is_oversized N
      ((⟨(k, v) :: l.dropLast, N⟩ : LruCache K V Nat)).len = false := by
    simp only [SizeLimited.limiter, SizeLimited.is_oversized, LruCache.len,
      List.length_cons, List.length_dropLast, hlen, decide_eq_false_iff_not]
    omega
  unfold LruCache.push
  simp only [habs]
  rw [try_insert_entry_evict (SizeLimited.limiter K V) ⟨l, N⟩ k v N N lru hadd
    hlast rfl, Option.some_bind]
  simp only []
  rw [take_evicted_pending, Option.some_bind]
  rw [drop_drain_evicted_none_not_oversized (SizeLimited.limiter K V)
    ⟨(k, v) :: l.dropLast, N⟩ k hno]
  rfl

/-- C5: inserting a new key into a count-limited cache of capacity `N > 0`
that currently holds `N` distinct keys evicts exactly the least-recently-
touched resident entry and no other: the resulting recency list is the new
pair at MRU followed by the `N - 1` more recently touched entries with their
values intact. -/
theorem C5_count_limited_eviction {K V : Type} [DecidableEq K] (N : Nat)
    (l : List (K × V)) (k : K) (v : V) (hN : 0 < N) (hlen : l.length = N)
    (habs : (⟨l, N⟩ : LruCache K V Nat).find_node k = none) :
    LruCache.put (SizeLimited.limiter K V) ⟨l, N⟩ k v
      = some (none, ⟨(k, v) :: l.dropLast, N⟩) :=
  size_put_vacant_evict N l k v hN hlen habs

/-- C5 witness: capacity 2, keys 1 and 0 resident, inserting key 5 evicts
key 0 (the LRU) only. -/
theorem C5_count_limited_eviction_witness :
    LruCache.put (SizeLimited.limiter Nat Nat) ⟨[(1, 10), (0, 20)], 2⟩ 5 7
      = some (none, ⟨[(5, 7), (1, 10)], 2⟩) :=
  C5_count_limited_eviction 2 [(1, 10), (0, 20)] 5 7 (by decide) (by decide)
    (by decide)

/-- C7: `VacantEntry::try_insert_entry`.  Reject fails with the offered pair
and (given the documented contract that a rejecting `on_add` leaves the
limiter unchanged) the cache unmutated; Accept attaches a fresh node at MRU;
Evict on a non-empty cache removes the LRU node from the index, captures its
pair as the pending evicted pair, and reuses its storage in place for the new
pair at MRU; Evict on an empty cache behaves exactly as the Accept path. -/
theorem C7_vacant_insert {K V σ : Type} [DecidableEq K] (L : Limiter K V σ)
    (c : LruCache K V σ) (k : K) (v : V) :
    (L.on_add c.limiter c.len k v = some (AddBehavior.Reject, c.limiter) →
      VacantEntry.try_insert_entry L c k v = some (Sum.inr ((k, v), c))) ∧
    (∀ s, L.on_add c.limiter c.len k v = some (AddBehavior.Accept, s) →
      VacantEntry.try_insert_entry L c k v
        = some (Sum.inl ⟨⟨(k, v) :: c.list, s⟩, k, OccupiedExtra.evicted none⟩)) ∧
    (∀ s s2 lru, L.on_add c.limiter c.len k v = some (AddBehavior.Evict, s) →
      c.list.getLast? = some lru → L.on_remove s lru.1 lru.2 = some s2 →
      VacantEntry.try_insert_entry L c k v
        = some (Sum.inl ⟨⟨(k, v) :: c.list.dropLast, s2⟩, k,
            OccupiedExtra.evicted (some lru)⟩)) ∧
    (∀ s, L.on_add c.limiter c.len k v = some (AddBehavior.Evict, s) →
      c.list = [] →
      VacantEntry.try_insert_entry L c k v
        = some (Sum.inl ⟨⟨[(k, v)], s⟩, k, OccupiedExtra.evicted none⟩)) :=
  ⟨fun h => try_insert_entry_reject L c k v c.limiter h,
   fun s h => try_insert_entry_accept L c k v s h,
   fun s s2 lru h hlast h2 => try_insert_entry_evict L c k v s s2 lru h hlast h2,
   fun s h hemp => try_insert_entry_evict_empty L c k v s h hemp⟩

/-- C7 witness: the four branches at concrete inputs (the Evict-on-empty
branch uses a cost-limited state that evicts while the cache is empty). -/
theorem C7_vacant_insert_witness :
    VacantEntry.try_insert_entry (SizeLimited.limiter Nat Nat) ⟨[], 0⟩ 1 5
      = some (Sum.inr ((1, 5), ⟨[], 0⟩)) ∧
    VacantEntry.try_insert_entry (SizeLimited.limiter Nat Nat) ⟨[(1, 10)], 2⟩ 2 20
      = some (Sum.inl ⟨⟨[(2, 20), (1, 10)], 2⟩, 2, OccupiedExtra.evicted none⟩) ∧
    VacantEntry.try_insert_entry (SizeLimited.limiter Nat Nat)
        ⟨[(1, 10), (0, 5)], 2⟩ 2 20
      = some (Sum.inl ⟨⟨[(2, 20), (1, 10)], 2⟩, 2,
          OccupiedExtra.evicted (some (0, 5))⟩) ∧
    VacantEntry.try_insert_entry
        (CostLimited.limiter (fun _ : Nat => 0) (fun v : Nat => v))
        ⟨[], ⟨10, 8⟩⟩ 1 5
      = some (Sum.inl ⟨⟨[(1, 5)], ⟨10, 13⟩⟩, 1, OccupiedExtra.evicted none⟩) :=
  ⟨(C7_vacant_insert (SizeLimited.limiter Nat Nat) ⟨[], 0⟩ 1 5).1 (by decide),
   (C7_vacant_insert (SizeLimited.limiter Nat Nat) ⟨[(1, 10)], 2⟩ 2 20).2.1 2
     (by decide),
   (C7_vacant_insert (SizeLimited.limiter Nat Nat) ⟨[(1, 10), (0, 5)], 2⟩ 2
     20).2.2.1 2 2 (0, 5) (by decide) (by decide) (by decide),
   (C7_vacant_insert (CostLimited.limiter (fun _ : Nat => 0) (fun v : Nat => v))
     ⟨[], ⟨10, 8⟩⟩ 1 5).2.2.2 ⟨10, 13⟩ (by decide) rfl⟩

/-- C8: `LruCache::put`.  Resident key, non-rejecting update: the old value is
returned, the value replaced and the node promoted.  Absent key on a count-
limited cache: None is returned after insertion when the limiter accepts
(length below capacity) or evicts (at capacity); a zero-capacity cache
rejects and `put` returns the offered value with the cache unchanged, so a
zero-capacity cache's length stays 0 after any sequence of puts. -/
theorem C8_put {K V : Type} [DecidableEq K] (k : K) (v : V) :
    (∀ (σ2 : Type) (L : Limiter K V σ2) (c : LruCache K V σ2) (p : K × V)
        (b : AddBehavior) (s : σ2),
      c.find_node k = some p →
      L.on_update c.limiter p.1 p.2 none (some v) = some (b, s) →
      b ≠ AddBehavior.Reject →
      c.put L k v = some (some p.2, ⟨(p.1, v) :: c.detach_key k, s⟩)) ∧
    (∀ (limit : Nat) (l : List (K × V)), l.length < limit →
      (⟨l, limit⟩ : LruCache K V Nat).find_node k = none →
      LruCache.put (SizeLimited.limiter K V) ⟨l, limit⟩ k v
        = some (none, ⟨(k, v) :: l, limit⟩)) ∧
    (∀ (N : Nat) (l : List (K × V)), 0 < N → l.length = N →
      (⟨l, N⟩ : LruCache K V Nat).find_node k = none →
      LruCache.put (SizeLimited.limiter K V) ⟨l, N⟩ k v
        = some (none, ⟨(k, v) :: l.dropLast, N⟩)) ∧
    (∀ l : List (K × V),
      (⟨l, 0⟩ : LruCache K V Nat).find_node k = none →
      LruCache.put (SizeLimited.limiter K V) ⟨l, 0⟩ k v
        = some (some v, ⟨l, 0⟩)) ∧
    (∀ ps : List (K × V),
      putList (SizeLimited.limiter K V) ⟨[], 0⟩ ps = some ⟨[], 0⟩) :=
  ⟨fun _ L c p b s hp hup hb => put_occupied_spec L c k v p b s hp hup hb,
   fun limit l hlt habs => size_put_vacant_accept limit l k v hlt habs,
   fun N l hN hlen habs => size_put_vacant_evict N l k v hN hlen habs,
   fun l habs => put_vacant_reject_spec (SizeLimited.limiter K V) ⟨l, 0⟩ k v
     habs rfl,
   fun ps => size_putList_zero_cap ps⟩

/-- C8 witness: the four put behaviors plus a zero-capacity sequence. -/
theorem C8_put_witness :
    LruCache.put (SizeLimited.limiter Nat Nat) ⟨[(2, 9), (1, 5)], 3⟩ 1 7
      = some (some 5, ⟨[(1, 7), (2, 9)], 3⟩) ∧
    LruCache.put (SizeLimited.limiter Nat Nat) ⟨[(1, 10)], 2⟩ 5 7
      = some (none, ⟨[(5, 7), (1, 10)], 2⟩) ∧
    LruCache.put (SizeLimited.limiter Nat Nat) ⟨[(9, 9)], 1⟩ 5 7
      = some (none, ⟨[(5, 7)], 1⟩) ∧
    LruCache.put (SizeLimited.limiter Nat Nat) ⟨[], 0⟩ 5 7
      = some (some 7, ⟨[], 0⟩) ∧
    putList (SizeLimited.limiter Nat Nat) ⟨[], 0⟩ [(1, 1), (2, 2), (3, 3)]
      = some ⟨[], 0⟩ :=
  ⟨(C8_put 1 7).1 Nat (SizeLimited.limiter Nat Nat) ⟨[(2, 9), (1, 5)], 3⟩
     (1, 5) AddBehavior.Accept 3 (by decide) (by decide) (by decide),
   (C8_put 5 7).2.1 2 [(1, 10)] (by decide) (by decide),
   (C8_put 5 7).2.2.1 1 [(9, 9)] (by decide) (by decide) (by decide),
   (C8_put 5 7).2.2.2.1 [] (by decide),
   (C8_put 5 7).2.2.2.2 [(1, 1), (2, 2), (3, 3)]⟩

/-- C9: `LruCache::push` returns exactly what got displaced: the old resident
pair on a same-key replace (non-rejecting update), the evicted LRU pair on an
at-capacity insertion, the offered pair itself on rejection (capacity 0), and
None when nothing was displaced; in particular on a count-limited cache of
capacity 1: push(0,0) = None, then push(1,1) = Some (0,0), then
push(1,2) = Some (1,1). -/
theorem C9_push_displaced {K V : Type} [DecidableEq K] (k : K) (v : V) :
    (∀ (σ2 : Type) (L : Limiter K V σ2) (c : LruCache K V σ2) (p : K × V)
        (b : AddBehavior) (s : σ2),
      c.find_node k = some p →
      L.on_update c.limiter p.1 p.2 (some k) (some v) = some (b, s) →
      b ≠ AddBehavior.Reject →
      c.push L k v = some (some p, ⟨(k, v) :: c.detach_key k, s⟩)) ∧
    (∀ (limit : Nat) (l : List (K × V)), l.length < limit →
      (⟨l, limit⟩ : LruCache K V Nat).find_node k = none →
      LruCache.push (SizeLimited.limiter K V) ⟨l, limit⟩ k v
        = some (none, ⟨(k, v) :: l, limit⟩)) ∧
    (∀ (N : Nat) (l : List (K × V)) (lru : K × V), 0 < N → l.length = N →
      l.getLast? = some lru →
      (⟨l, N⟩ : LruCache K V Nat).find_node k = none →
      LruCache.push (SizeLimited.limiter K V) ⟨l, N⟩ k v
        = some (some lru, ⟨(k, v) :: l.dropLast, N⟩)) ∧
    (∀ l : List (K × V),
      (⟨l, 0⟩ : LruCache K V Nat).find_node k = none →
      LruCache.push (SizeLimited.limiter K V) ⟨l, 0⟩ k v
        = some (some (k, v), ⟨l, 0⟩)) ∧
    (LruCache.push (SizeLimited.limiter Nat Nat) ⟨[], 1⟩ 0 0
        = some (none, ⟨[(0, 0)], 1⟩) ∧
     LruCache.push (SizeLimited.limiter Nat Nat) ⟨[(0, 0)], 1⟩ 1 1
        = some (some (0, 0), ⟨[(1, 1)], 1⟩) ∧
     LruCache.push (SizeLimited.limiter Nat Nat) ⟨[(1, 1)], 1⟩ 1 2
        = some (some (1, 1), ⟨[(1, 2)], 1⟩)) :=
  ⟨fun _ L c p b s hp hup hb => push_occupied_spec L c k v p b s hp hup hb,
   fun limit l hlt habs => size_push_vacant_accept limit l k v hlt habs,
   fun N l lru hN hlen hlast habs =>
     size_push_vacant_evict N l k v lru hN hlen hlast habs,
   fun l habs => push_vacant_reject_spec (SizeLimited.limiter K V) ⟨l, 0⟩ k v
     habs rfl,
   by decide⟩

/-- C9 witness: the four push behaviors at concrete inputs. -/
theorem C9_push_displaced_witness :
    LruCache.push (SizeLimited.limiter Nat Nat) ⟨[(2, 9), (1, 5)], 3⟩ 1 7
      = some (some (1, 5), ⟨[(1, 7), (2, 9)], 3⟩) ∧
    LruCache.push (SizeLimited.limiter Nat Nat) ⟨[(1, 10)], 2⟩ 5 7
      = some (none, ⟨[(5, 7), (1, 10)], 2⟩) ∧
    LruCache.push (SizeLimited.limiter Nat Nat) ⟨[(1, 10), (0, 20)], 2⟩ 5 7
      = some (some (0, 20), ⟨[(5, 7), (1, 10)], 2⟩) ∧
    LruCache.push (SizeLimited.limiter Nat Nat) ⟨[], 0⟩ 5 7
      = some (some (5, 7), ⟨[], 0⟩) :=
  ⟨(C9_push_displaced 1 7).1 Nat (SizeLimited.limiter Nat Nat)
     ⟨[(2, 9), (1, 5)], 3⟩ (1, 5) AddBehavior.Accept 3 (by decide) (by decide)
     (by decide),
   (C9_push_displaced 5 7).2.1 2 [(1, 10)] (by decide) (by decide),
   (C9_push_displaced 5 7).2.2.1 2 [(1, 10), (0, 20)] (0, 20) (by decide)
     (by decide) (by decide) (by decide),
   (C9_push_displaced 5 7).2.2.2.1 [] (by decide)⟩

/-- C10: replacing a resident value through `OccupiedEntry::try_insert` (and
hence through `put`/`push` on a resident key) with a non-rejecting limiter
additionally promotes the node to the MRU position, exactly as `get` would;
a rejected update leaves both the value and the recency position unchanged. -/
theorem C10_try_insert_promotes {K V σ : Type} [DecidableEq K]
    (L : Limiter K V σ) (e : OccupiedEntry K V σ) (v : V) (p : K × V)
    (hp : e.cache.find_node e.node_key = some p) :
    (∀ b s, L.on_update e.cache.limiter p.1 p.2 none (some v) = some (b, s) →
      b ≠ AddBehavior.Reject →
      e.try_insert L v
          = some (Sum.inl p.2,
              ⟨⟨(p.1, v) :: e.cache.detach_key e.node_key, s⟩, e.node_key,
               e.extra⟩)
        ∧ ((p.1, v) :: e.cache.detach_key e.node_key).map Prod.fst
            = ((e.cache.get e.node_key).2).list.map Prod.fst) ∧
    (∀ s, L.on_update e.cache.limiter p.1 p.2 none (some v)
        = some (AddBehavior.Reject, s) →
      e.try_insert L v
        = some (Sum.inr v, ⟨⟨e.cache.list, s⟩, e.node_key, e.extra⟩)) := by
  constructor
  · intro b s h hb
    constructor
    · unfold OccupiedEntry.try_insert
      simp only [hp]
      rw [h, Option.map_some', if_neg (by simpa using hb)]
    · simp only [LruCache.get, hp, LruCache.promote, List.map_cons]
  · intro s h
    unfold OccupiedEntry.try_insert
    simp only [hp]
    rw [h, Option.map_some', if_pos rfl]

/-- C10 witness: a promoting update under `SizeLimited` and a rejected update
under a custom update-rejecting limiter. -/
theorem C10_try_insert_promotes_witness :
    (OccupiedEntry.try_insert (SizeLimited.limiter Nat Nat)
        ⟨⟨[(2, 9), (1, 5)], 3⟩, 1, OccupiedExtra.key⟩ 7
      = some (Sum.inl 5, ⟨⟨[(1, 7), (2, 9)], 3⟩, 1, OccupiedExtra.key⟩)) ∧
    ([(1, 7), (2, 9)].map Prod.fst
      = ((LruCache.get (⟨[(2, 9), (1, 5)], 3⟩ : LruCache Nat Nat Nat)
          1).2).list.map Prod.fst) ∧
    (OccupiedEntry.try_insert (rejectUpdates Nat Nat)
        ⟨⟨[(2, 9), (1, 5)], ()⟩, 1, OccupiedExtra.key⟩ 7
      = some (Sum.inr 7, ⟨⟨[(2, 9), (1, 5)], ()⟩, 1, OccupiedExtra.key⟩)) := by
  have h1 := (C10_try_insert_promotes (SizeLimited.limiter Nat Nat)
    ⟨⟨[(2, 9), (1, 5)], 3⟩, 1, OccupiedExtra.key⟩ 7 (1, 5) (by decide)).1
    AddBehavior.Accept 3 (by decide) (by decide)
  have h2 := (C10_try_insert_promotes (rejectUpdates Nat Nat)
    ⟨⟨[(2, 9), (1, 5)], ()⟩, 1, OccupiedExtra.key⟩ 7 (1, 5) (by decide)).2
    () (by decide)
  exact ⟨h1.1, h1.2, h2⟩

end Lru
